import Mathlib

/-!
Verification of the hospital urgency (triage) system.

The development shallowly embeds the core of the repository:
* `src/patient.py` — the `Patient` class (name, urgency level, `__lt__`);
* `src/hospital.py` — the `Hospital` class, whose three collections are a
  binary min-heap of waiting patients maintained by Python's `heapq`
  (`heappush` / `heappop`, embedded here following CPython's
  `Lib/heapq.py` `_siftdown` / `_siftup` routines), a stack of attended
  patients, and an append-only registry of all patients.

Patients are compared only through `__lt__` (strictly smaller urgency
level), exactly as `heapq` and Python's `sorted` use them.
-/

namespace Triage

/-- Patient record from `src/patient.py`: a name and an integer urgency
level (1 = most urgent, 5 = least urgent). -/
structure Patient where
  name : String
  urgency_level : Int
deriving DecidableEq, Repr, Inhabited

/-- `Patient.get_urgency_name`: the color label for an urgency level,
`"UNKNOWN"` for a level outside the `URGENCY_LEVELS` table. -/
def Patient.get_urgency_name (p : Patient) : String :=
  if p.urgency_level = 1 then "RED"
  else if p.urgency_level = 2 then "ORANGE"
  else if p.urgency_level = 3 then "YELLOW"
  else if p.urgency_level = 4 then "GREEN"
  else if p.urgency_level = 5 then "BLUE"
  else "UNKNOWN"

/-- `Patient.__lt__` from `src/patient.py`: `self.urgency_level <
other.urgency_level`.  This is the `precedes` ordering relation of the
spec and the only comparison `heapq` and `sorted` ever invoke. -/
def Patient.lt (a b : Patient) : Prop :=
  a.urgency_level < b.urgency_level

instance : DecidableRel Patient.lt := fun a b =>
  inferInstanceAs (Decidable (a.urgency_level < b.urgency_level))

/-- Default patient used only to give list indexing a total type; every
index used by the embedded `heapq` code is proved in bounds. -/
def dflt : Patient := ⟨"", 0⟩

/-- `heap[i]` of the Python code: element at index `i`. -/
def nth (l : List Patient) (i : Nat) : Patient := l.getD i dflt

/-- CPython `heapq._siftdown(heap, startpos, pos)` with
`newitem = heap[pos]` passed explicitly (the Python routine reads it once
before the loop).  While `startpos < pos` and `newitem < heap[parentpos]`
the parent is moved down to `pos`; finally `newitem` is written at the
stopping position. -/
def siftdownAux (heap : List Patient) (startpos pos : Nat) (newitem : Patient) :
    List Patient :=
  if h : startpos < pos then
    let parentpos := (pos - 1) / 2
    let parent := nth heap parentpos
    if Patient.lt newitem parent then
      siftdownAux (heap.set pos parent) startpos parentpos newitem
    else
      heap.set pos newitem
  else
    heap.set pos newitem
termination_by pos
decreasing_by
  exact Nat.lt_of_le_of_lt (Nat.div_le_self _ _) (Nat.sub_lt (Nat.lt_of_le_of_lt (Nat.zero_le _) h) Nat.one_pos)

/-- Loop of CPython `heapq._siftup`: repeatedly move the smaller child up
into `pos` until `pos` has no child below `endpos`; returns the final
array and final position.  The child choice mirrors the Python test
`rightpos < endpos and not heap[childpos] < heap[rightpos]` selecting
`childpos = rightpos = 2*pos+2`, else `childpos = 2*pos+1`. -/
def siftupAux (heap : List Patient) (pos endpos : Nat) : List Patient × Nat :=
  if h : 2 * pos + 1 < endpos then
    if 2 * pos + 2 < endpos ∧
        ¬ Patient.lt (nth heap (2 * pos + 1)) (nth heap (2 * pos + 2)) then
      siftupAux (heap.set pos (nth heap (2 * pos + 2))) (2 * pos + 2) endpos
    else
      siftupAux (heap.set pos (nth heap (2 * pos + 1))) (2 * pos + 1) endpos
  else
    (heap, pos)
termination_by endpos - pos
decreasing_by
  · omega
  · omega

/-- CPython `heapq._siftup(heap, pos)`: record `newitem = heap[pos]`,
bubble the smaller-child chain up to a leaf, write `newitem` at the leaf
position reached, then `_siftdown(heap, pos, finalpos)`. -/
def siftup (heap : List Patient) (pos : Nat) : List Patient :=
  let newitem := nth heap pos
  let r := siftupAux heap pos heap.length
  siftdownAux (r.1.set r.2 newitem) pos r.2 newitem

/-- CPython `heapq.heappush(heap, item)`: append `item`, then
`_siftdown(heap, 0, len(heap)-1)`. -/
def heappush (heap : List Patient) (item : Patient) : List Patient :=
  siftdownAux (heap ++ [item]) 0 heap.length item

/-- CPython `heapq.heappop(heap)`: pop the last element; if the heap is
still non-empty, save `heap[0]` as the return value, move the popped
element to the root and `_siftup(heap, 0)`.  `none` models the
`IndexError` on an empty heap (the caller in `hospital.py` checks for
emptiness first, so this branch is never reached there). -/
def heappop (heap : List Patient) : Option (Patient × List Patient) :=
  if h : heap = [] then
    none
  else if heap.dropLast = [] then
    some (heap.getLast h, [])
  else
    some (nth heap.dropLast 0,
      siftup (heap.dropLast.set 0 (heap.getLast h)) 0)

/-- Hospital state from `src/hospital.py`: the three collections plus the
facility name. -/
structure Hospital where
  hospital_name : String
  priority_queue : List Patient
  attended_stack : List Patient
  all_patients : List Patient
deriving DecidableEq, Repr

/-- `Hospital.__init__`: empty collections (the hospital name defaults to
"HOSPITAL URGENCY SYSTEM" in the Python code; it is explicit here). -/
def Hospital.init (hospital_name : String) : Hospital :=
  ⟨hospital_name, [], [], []⟩

/-- `Hospital.add_patient`: `heappush` into the priority queue and append
to the complete registry. -/
def Hospital.add_patient (h : Hospital) (patient : Patient) : Hospital :=
  { h with
    priority_queue := heappush h.priority_queue patient
    all_patients := h.all_patients ++ [patient] }

/-- `Hospital.waiting_patients`: `sorted(self._priority_queue)` — Python's
stable sort driven by `Patient.__lt__`, modelled by `List.mergeSort` with
the non-strict comparison `¬ other < self`, i.e. `urgency_level ≤`. -/
def Hospital.waiting_patients (h : Hospital) : List Patient :=
  h.priority_queue.mergeSort (fun a b => a.urgency_level ≤ b.urgency_level)

/-- `Hospital.attend_patient`: if the queue is non-empty, `heappop` the
highest-priority patient, push them on the attended stack and return
them; otherwise return `None` and leave the state unchanged. -/
def Hospital.attend_patient (h : Hospital) : Option Patient × Hospital :=
  match heappop h.priority_queue with
  | some (patient, rest) =>
      (some patient,
       { h with
         priority_queue := rest
         attended_stack := h.attended_stack ++ [patient] })
  | none => (none, h)

/-- `Hospital.undo_last_attendance`: if the attended stack is non-empty,
pop its top patient, `heappush` them back into the priority queue and
return them; otherwise return `None` and leave the state unchanged. -/
def Hospital.undo_last_attendance (h : Hospital) : Option Patient × Hospital :=
  match h.attended_stack.getLast? with
  | some patient =>
      (some patient,
       { h with
         attended_stack := h.attended_stack.dropLast
         priority_queue := heappush h.priority_queue patient })
  | none => (none, h)

/-- `Hospital.get_attended_patients`: the attended stack, first attended
at index 0, most recent at the end. -/
def Hospital.get_attended_patients (h : Hospital) : List Patient :=
  h.attended_stack

/-- `Hospital.get_all_patients`: the complete registry in registration
order. -/
def Hospital.get_all_patients (h : Hospital) : List Patient :=
  h.all_patients

/-- One manager operation: `register` (= `add_patient`), `attendNext`
(= `attend_patient`) or `undoLastAttendance` (= `undo_last_attendance`). -/
inductive Op where
  | register (p : Patient)
  | attendNext
  | undoLast
deriving DecidableEq, Repr

/-- Apply one operation to a hospital state (discarding the returned
patient, keeping the state). -/
def applyOp (h : Hospital) : Op → Hospital
  | .register p => h.add_patient p
  | .attendNext => (h.attend_patient).2
  | .undoLast => (h.undo_last_attendance).2

/-- Run a sequence of operations from a given state. -/
def runOps (h : Hospital) (ops : List Op) : Hospital :=
  ops.foldl applyOp h

/-- Parent index of a heap slot, `(pos - 1) >> 1` of CPython `heapq`. -/
def hpar (j : Nat) : Nat := (j - 1) / 2

/-- Binary min-heap property of `heapq`, stated through parent edges:
every non-root slot is no more urgent than its parent. -/
def IsHeap (l : List Patient) : Prop :=
  ∀ j, j < l.length → 0 < j →
    (nth l (hpar j)).urgency_level ≤ (nth l j).urgency_level

instance (l : List Patient) : Decidable (IsHeap l) :=
  inferInstanceAs (Decidable (∀ j, j < l.length → _))

theorem hpar_lt {j : Nat} (h : 0 < j) : hpar j < j := by
  unfold hpar; omega

theorem hpar_eq_iff {i j : Nat} (h : 0 < j) :
    hpar j = i ↔ j = 2 * i + 1 ∨ j = 2 * i + 2 := by
  unfold hpar; omega

theorem nth_eq_getElem {l : List Patient} {i : Nat} (h : i < l.length) :
    nth l i = l[i] := by
  simp [nth, List.getD_eq_getElem?_getD, List.getElem?_eq_getElem h]

theorem nth_set_self {l : List Patient} {i : Nat} {x : Patient}
    (h : i < l.length) : nth (l.set i x) i = x := by
  simp [nth, List.getD_eq_getElem?_getD, List.getElem?_set_self h]

theorem nth_set_ne {l : List Patient} {i j : Nat} {x : Patient}
    (h : i ≠ j) : nth (l.set i x) j = nth l j := by
  simp [nth, List.getD_eq_getElem?_getD, List.getElem?_set_ne h]

theorem nth_append_left {l m : List Patient} {i : Nat}
    (h : i < l.length) : nth (l ++ m) i = nth l i := by
  rw [nth_eq_getElem (by simp; omega), nth_eq_getElem h]
  exact List.getElem_append_left h

theorem set_nth_self {l : List Patient} {i : Nat} (h : i < l.length) :
    l.set i (nth l i) = l := by
  apply List.ext_getElem (by simp)
  intro j hj hj'
  rw [List.getElem_set]
  split
  · next heq => subst heq; rw [nth_eq_getElem h]
  · rfl

theorem perm_set_cons {l : List Patient} {i : Nat} (x : Patient)
    (h : i < l.length) : (nth l i :: l.set i x).Perm (x :: l) := by
  induction l generalizing i with
  | nil => simp at h
  | cons a t ih =>
    cases i with
    | zero =>
      simp only [nth, List.getD_cons_zero, List.set_cons_zero]
      exact List.Perm.swap x a t
    | succ i =>
      simp only [nth, List.getD_cons_succ, List.set_cons_succ]
      have hi : i < t.length := by simpa using h
      exact (List.Perm.swap a (nth t i) (t.set i x)).trans
        (((ih hi).cons a).trans (List.Perm.swap x a t))

theorem perm_set_set {l : List Patient} {i j : Nat} {a b : Patient}
    (hij : i ≠ j) (hi : i < l.length) (hj : j < l.length)
    (ha : nth l j = a) : ((l.set i a).set j b).Perm (l.set i b) := by
  have hAj : nth (l.set i a) j = a := by rw [nth_set_ne hij, ha]
  have hjA : j < (l.set i a).length := by simpa using hj
  have h1 : (a :: (l.set i a).set j b).Perm (b :: l.set i a) := by
    have := perm_set_cons b hjA
    rwa [hAj] at this
  have h2 : (nth l i :: l.set i a).Perm (a :: l) := perm_set_cons a hi
  have h3 : (nth l i :: l.set i b).Perm (b :: l) := perm_set_cons b hi
  have h4 : (nth l i :: a :: (l.set i a).set j b).Perm (nth l i :: a :: l.set i b) :=
    ((h1.cons (nth l i)).trans
      ((List.Perm.swap b (nth l i) (l.set i a)).trans
        ((h2.cons b).trans
          ((List.Perm.swap a b l).trans
            (((h3.symm).cons a).trans
              (List.Perm.swap (nth l i) a (l.set i b)))))))
  exact (h4.cons_inv).cons_inv

theorem siftdownAux_eq (heap : List Patient) (s pos : Nat) (x : Patient) :
    siftdownAux heap s pos x =
      if s < pos then
        (if Patient.lt x (nth heap ((pos - 1) / 2)) then
          siftdownAux (heap.set pos (nth heap ((pos - 1) / 2))) s ((pos - 1) / 2) x
        else heap.set pos x)
      else heap.set pos x := by
  rw [siftdownAux]
  split
  · next h => simp only [if_pos h]
  · next h => simp only [if_neg h]

theorem length_siftdownAux (heap : List Patient) (s pos : Nat) (x : Patient) :
    (siftdownAux heap s pos x).length = heap.length := by
  induction pos using Nat.strong_induction_on generalizing heap with
  | _ pos ih =>
    rw [siftdownAux_eq]
    split
    · next h =>
      split
      · rw [ih _ (by omega)]
        simp
      · simp
    · simp

theorem perm_siftdownAux {heap : List Patient} {s pos : Nat} {x : Patient}
    (hlen : pos < heap.length) :
    (siftdownAux heap s pos x).Perm (heap.set pos x) := by
  induction pos using Nat.strong_induction_on generalizing heap with
  | _ pos ih =>
    rw [siftdownAux_eq]
    split
    · next h =>
      split
      · have hpp : (pos - 1) / 2 < pos := by omega
        refine (ih _ hpp (by simpa using Nat.lt_trans hpp hlen)).trans ?_
        exact perm_set_set (by omega) hlen (Nat.lt_trans hpp hlen) rfl
      · exact List.Perm.refl _
    · exact List.Perm.refl _

theorem siftupAux_eq (heap : List Patient) (pos endpos : Nat) :
    siftupAux heap pos endpos =
      if 2 * pos + 1 < endpos then
        (if 2 * pos + 2 < endpos ∧
            ¬ Patient.lt (nth heap (2 * pos + 1)) (nth heap (2 * pos + 2)) then
          siftupAux (heap.set pos (nth heap (2 * pos + 2))) (2 * pos + 2) endpos
        else
          siftupAux (heap.set pos (nth heap (2 * pos + 1))) (2 * pos + 1) endpos)
      else (heap, pos) := by
  rw [siftupAux]
  split
  · rfl
  · rfl

theorem length_siftupAux (heap : List Patient) (pos endpos : Nat) :
    (siftupAux heap pos endpos).1.length = heap.length := by
  induction heap, pos, endpos using siftupAux.induct with
  | case1 heap pos endpos h hc ih =>
    rw [siftupAux_eq, if_pos h, if_pos hc, ih]
    simp
  | case2 heap pos endpos h hc ih =>
    rw [siftupAux_eq, if_pos h, if_neg hc, ih]
    simp
  | case3 heap pos endpos h =>
    rw [siftupAux_eq, if_neg h]

theorem snd_siftupAux_lt (heap : List Patient) (pos endpos : Nat) :
    pos < endpos → (siftupAux heap pos endpos).2 < endpos := by
  induction heap, pos, endpos using siftupAux.induct with
  | case1 heap pos endpos h hc ih =>
    intro _
    rw [siftupAux_eq, if_pos h, if_pos hc]
    exact ih hc.1
  | case2 heap pos endpos h hc ih =>
    intro _
    rw [siftupAux_eq, if_pos h, if_neg hc]
    exact ih h
  | case3 heap pos endpos h =>
    intro hp
    rw [siftupAux_eq, if_neg h]
    exact hp

theorem snd_siftupAux_leaf (heap : List Patient) (pos endpos : Nat) :
    2 * (siftupAux heap pos endpos).2 + 1 ≥ endpos := by
  induction heap, pos, endpos using siftupAux.induct with
  | case1 heap pos endpos h hc ih =>
    rw [siftupAux_eq, if_pos h, if_pos hc]
    exact ih
  | case2 heap pos endpos h hc ih =>
    rw [siftupAux_eq, if_pos h, if_neg hc]
    exact ih
  | case3 heap pos endpos h =>
    rw [siftupAux_eq, if_neg h]
    omega

theorem perm_siftupAux (heap : List Patient) (pos endpos : Nat) :
    pos < endpos → endpos ≤ heap.length → ∀ y : Patient,
    ((siftupAux heap pos endpos).1.set (siftupAux heap pos endpos).2 y).Perm
      (heap.set pos y) := by
  induction heap, pos, endpos using siftupAux.induct with
  | case1 heap pos endpos h hc ih =>
    intro hp he y
    rw [siftupAux_eq, if_pos h, if_pos hc]
    refine (ih hc.1 (by simpa using he) y).trans ?_
    exact perm_set_set (by omega) (by omega) (by omega) rfl
  | case2 heap pos endpos h hc ih =>
    intro hp he y
    rw [siftupAux_eq, if_pos h, if_neg hc]
    refine (ih h (by simpa using he) y).trans ?_
    exact perm_set_set (by omega) (by omega) (by omega) rfl
  | case3 heap pos endpos h =>
    intro hp he y
    rw [siftupAux_eq, if_neg h]

theorem perm_siftup {heap : List Patient} {pos : Nat}
    (hpos : pos < heap.length) : (siftup heap pos).Perm heap := by
  unfold siftup
  have h2 : (siftupAux heap pos heap.length).2 < heap.length :=
    snd_siftupAux_lt heap pos heap.length hpos
  have hlenfst : (siftupAux heap pos heap.length).1.length = heap.length :=
    length_siftupAux heap pos heap.length
  have hperm1 : (siftdownAux
      ((siftupAux heap pos heap.length).1.set (siftupAux heap pos heap.length).2 (nth heap pos))
      pos (siftupAux heap pos heap.length).2 (nth heap pos)).Perm
      (((siftupAux heap pos heap.length).1.set (siftupAux heap pos heap.length).2
        (nth heap pos)).set (siftupAux heap pos heap.length).2 (nth heap pos)) :=
    perm_siftdownAux (by simp only [List.length_set, hlenfst]; omega)
  rw [List.set_set] at hperm1
  refine hperm1.trans ?_
  refine (perm_siftupAux heap pos heap.length hpos (Nat.le_refl _) (nth heap pos)).trans ?_
  rw [set_nth_self hpos]

theorem set_concat (l : List Patient) (a b : Patient) :
    (l ++ [a]).set l.length b = l ++ [b] := by
  induction l with
  | nil => rfl
  | cons x t ih => simp [List.set_cons_succ, ih]

theorem length_heappush (heap : List Patient) (x : Patient) :
    (heappush heap x).length = heap.length + 1 := by
  unfold heappush
  rw [length_siftdownAux]
  simp

theorem perm_heappush (heap : List Patient) (x : Patient) :
    (heappush heap x).Perm (x :: heap) := by
  unfold heappush
  have h1 : heap.length < (heap ++ [x]).length := by simp
  refine (perm_siftdownAux h1).trans ?_
  rw [set_concat]
  exact List.perm_append_singleton x heap

theorem heappop_eq_none_iff {heap : List Patient} :
    heappop heap = none ↔ heap = [] := by
  unfold heappop
  split
  · next h => simp [h]
  · next h =>
    split
    · simp [h]
    · simp [h]

theorem heappop_spec {heap : List Patient} (h : heap ≠ []) :
    ∃ rest, heappop heap = some (nth heap 0, rest) ∧
      rest.length + 1 = heap.length ∧ (nth heap 0 :: rest).Perm heap := by
  obtain ⟨ys, lastelt, hys⟩ : ∃ L b, heap = L ++ [b] := by
    rcases List.eq_nil_or_concat heap with hnil | ⟨L, b, hlb⟩
    · exact absurd hnil h
    · exact ⟨L, b, by simpa using hlb⟩
  have hdrop : heap.dropLast = ys := by rw [hys, List.dropLast_concat]
  have hlast : heap.getLast h = lastelt := by
    subst hys
    exact List.getLast_concat _
  unfold heappop
  rw [dif_neg h, hdrop, hlast]
  by_cases hy : ys = []
  · subst hy
    rw [if_pos rfl]
    refine ⟨[], ?_, ?_, ?_⟩
    · subst hys
      rfl
    · rw [hys]; rfl
    · subst hys
      exact List.Perm.refl _
  · have hylen : 0 < ys.length := List.length_pos.mpr hy
    have hnth0 : nth heap 0 = nth ys 0 := by
      rw [hys, nth_append_left hylen]
    have hsetlen : 0 < (ys.set 0 lastelt).length := by simpa using hylen
    rw [if_neg hy]
    refine ⟨siftup (ys.set 0 lastelt) 0, ?_, ?_, ?_⟩
    · rw [hnth0]
    · have hlen1 : (siftup (ys.set 0 lastelt) 0).length = ys.length := by
        have hp := (perm_siftup hsetlen).length_eq
        simpa using hp
      rw [hlen1, hys]
      simp
    · have hp1 : (siftup (ys.set 0 lastelt) 0).Perm (ys.set 0 lastelt) :=
        perm_siftup hsetlen
      rw [hnth0]
      refine ((hp1.cons (nth ys 0)).trans ?_)
      refine (perm_set_cons lastelt hylen).trans ?_
      rw [hys]
      exact (List.perm_append_singleton lastelt ys).symm

/-- Invariant of the `_siftdown` loop: writing `newitem` at `pos` gives an
array that satisfies every parent edge except possibly the one into `pos`,
and in addition the children of `pos` are already no more urgent than the
parent of `pos` (so moving that parent down to `pos` is safe). -/
def InvD (heap : List Patient) (pos : Nat) (x : Patient) : Prop :=
  (∀ j, j < heap.length → 0 < j → j ≠ pos →
    (nth (heap.set pos x) (hpar j)).urgency_level ≤
      (nth (heap.set pos x) j).urgency_level) ∧
  (∀ j, j < heap.length → hpar j = pos → 0 < pos →
    (nth (heap.set pos x) (hpar pos)).urgency_level ≤
      (nth (heap.set pos x) j).urgency_level)

theorem invD_step {heap : List Patient} {pos : Nat} {x : Patient}
    (hlen : pos < heap.length) (hpos : 0 < pos)
    (hlt : Patient.lt x (nth heap (hpar pos)))
    (hinv : InvD heap pos x) :
    InvD (heap.set pos (nth heap (hpar pos))) (hpar pos) x := by
  obtain ⟨inv1, inv2⟩ := hinv
  have hplt : hpar pos < pos := hpar_lt hpos
  have hpplen : hpar pos < heap.length := Nat.lt_trans hplt hlen
  have hxlt : x.urgency_level < (nth heap (hpar pos)).urgency_level := hlt
  have hHpos : nth (heap.set pos x) pos = x := nth_set_self hlen
  have hHp : nth (heap.set pos x) (hpar pos) = nth heap (hpar pos) :=
    nth_set_ne (Nat.ne_of_gt hplt)
  have hHother : ∀ k, k ≠ pos → nth (heap.set pos x) k = nth heap k := by
    intro k hk
    exact nth_set_ne (Ne.symm hk)
  have hH'p : nth ((heap.set pos (nth heap (hpar pos))).set (hpar pos) x) (hpar pos) = x :=
    nth_set_self (by simpa using hpplen)
  have hH'pos : nth ((heap.set pos (nth heap (hpar pos))).set (hpar pos) x) pos =
      nth heap (hpar pos) := by
    rw [nth_set_ne (Nat.ne_of_lt hplt), nth_set_self hlen]
  have hH'other : ∀ k, k ≠ hpar pos → k ≠ pos →
      nth ((heap.set pos (nth heap (hpar pos))).set (hpar pos) x) k = nth heap k := by
    intro k h1 h2
    rw [nth_set_ne (Ne.symm h1), nth_set_ne (Ne.symm h2)]
  constructor
  · intro j hj hj0 hjp
    rw [List.length_set] at hj
    by_cases hjpos : j = pos
    · subst hjpos
      rw [hH'p, hH'pos]
      exact Int.le_of_lt hxlt
    · by_cases hparj : hpar j = pos
      · rw [hparj, hH'pos]
        have hjc := inv2 j hj hparj hpos
        rw [hHp] at hjc
        have hjne : j ≠ hpar pos := by
          have : pos < j := by
            have := hpar_lt hj0
            omega
          omega
        rw [hH'other j hjne hjpos]
        rw [hHother j hjpos] at hjc
        exact hjc
      · by_cases hparj2 : hpar j = hpar pos
        · rw [hparj2, hH'p, hH'other j hjp hjpos]
          have h1 := inv1 j hj hj0 hjpos
          rw [hparj2, hHp, hHother j hjpos] at h1
          exact Int.le_trans (Int.le_of_lt hxlt) h1
        · rw [hH'other (hpar j) hparj2 hparj, hH'other j hjp hjpos]
          have h1 := inv1 j hj hj0 hjpos
          rw [hHother (hpar j) hparj, hHother j hjpos] at h1
          exact h1
  · intro j hj hparj hp0
    rw [List.length_set] at hj
    have hgp : hpar (hpar pos) < hpar pos := hpar_lt hp0
    have hgpne : hpar (hpar pos) ≠ pos := by omega
    have hgprw : nth ((heap.set pos (nth heap (hpar pos))).set (hpar pos) x)
        (hpar (hpar pos)) = nth heap (hpar (hpar pos)) :=
      hH'other _ (Nat.ne_of_lt hgp) hgpne
    have hbase := inv1 (hpar pos) hpplen hp0 (Nat.ne_of_lt hplt)
    rw [hHp, hHother (hpar (hpar pos)) hgpne] at hbase
    by_cases hjpos : j = pos
    · subst hjpos
      rw [hgprw, hH'pos]
      exact hbase
    · have hjp : j ≠ hpar pos := by
        have e1 : hpar j = (j - 1) / 2 := rfl
        have e2 : hpar pos = (pos - 1) / 2 := rfl
        omega
      have hj0 : 0 < j := by
        rcases Nat.eq_zero_or_pos j with h0 | h0
        · exfalso
          have : hpar j = 0 := by subst h0; rfl
          omega
        · exact h0
      rw [hgprw, hH'other j hjp hjpos]
      have h1 := inv1 j hj hj0 hjpos
      rw [hparj, hHp, hHother j hjpos] at h1
      exact Int.le_trans hbase h1

theorem isHeap_of_invD_stop {heap : List Patient} {pos : Nat} {x : Patient}
    (hlen : pos < heap.length) (hinv : InvD heap pos x)
    (hstop : pos = 0 ∨ ¬ Patient.lt x (nth heap (hpar pos))) :
    IsHeap (heap.set pos x) := by
  obtain ⟨inv1, inv2⟩ := hinv
  intro j hj hj0
  rw [List.length_set] at hj
  by_cases hjpos : j = pos
  · subst hjpos
    rcases hstop with h0 | hnlt
    · omega
    · have hplt : hpar j < j := hpar_lt hj0
      rw [nth_set_ne (Nat.ne_of_gt hplt), nth_set_self hlen]
      exact Int.not_lt.mp hnlt
  · exact inv1 j hj hj0 hjpos

theorem isHeap_siftdownAux :
    ∀ (heap : List Patient) (s pos : Nat) (x : Patient),
    s = 0 → pos < heap.length → InvD heap pos x →
    IsHeap (siftdownAux heap s pos x) := by
  intro heap s pos x
  induction heap, s, pos, x using siftdownAux.induct with
  | case1 heap s pos x h parentpos parent hlt ih =>
    intro hs hlen hinv
    rw [siftdownAux_eq, if_pos h, if_pos hlt]
    have hpos : 0 < pos := by omega
    exact ih hs (by simpa using Nat.lt_trans (hpar_lt hpos) hlen)
      (invD_step hlen hpos hlt hinv)
  | case2 heap s pos x h parentpos parent hnlt =>
    intro hs hlen hinv
    rw [siftdownAux_eq, if_pos h, if_neg hnlt]
    exact isHeap_of_invD_stop hlen hinv (Or.inr hnlt)
  | case3 heap s pos x h =>
    intro hs hlen hinv
    rw [siftdownAux_eq, if_neg h]
    have hpos : pos = 0 := by omega
    exact isHeap_of_invD_stop hlen hinv (Or.inl hpos)

theorem isHeap_heappush {heap : List Patient} {x : Patient}
    (hh : IsHeap heap) : IsHeap (heappush heap x) := by
  unfold heappush
  apply isHeap_siftdownAux _ _ _ _ rfl (by simp)
  constructor
  · intro j hj hj0 hjp
    rw [List.length_append] at hj
    have hjlen : j < heap.length := by simp at hj; omega
    have hplen : hpar j < heap.length := Nat.lt_trans (hpar_lt hj0) hjlen
    rw [set_concat, nth_append_left hjlen, nth_append_left hplen]
    exact hh j hjlen hj0
  · intro j hj hparj hpos
    exfalso
    have e1 : hpar j = (j - 1) / 2 := rfl
    simp only [List.length_append, List.length_cons, List.length_nil] at hj
    omega

/-- Invariant of the `_siftup` loop: every parent edge holds except
possibly the edges out of `pos` (whose entry is conceptually a hole), and
the parent of `pos` is already no more urgent than the children of `pos`
(so promoting a child into `pos` is safe). -/
def InvU (heap : List Patient) (pos : Nat) : Prop :=
  (∀ j, j < heap.length → 0 < j → hpar j ≠ pos →
    (nth heap (hpar j)).urgency_level ≤ (nth heap j).urgency_level) ∧
  (∀ j, j < heap.length → hpar j = pos → 0 < pos →
    (nth heap (hpar pos)).urgency_level ≤ (nth heap j).urgency_level)

theorem invU_step {heap : List Patient} {pos c : Nat}
    (hc : hpar c = pos) (hclen : c < heap.length) (hpc : pos < c)
    (hsmall : ∀ j, j < heap.length → 0 < j → hpar j = pos →
      (nth heap c).urgency_level ≤ (nth heap j).urgency_level)
    (hinv : InvU heap pos) :
    InvU (heap.set pos (nth heap c)) c := by
  obtain ⟨inv1, inv2⟩ := hinv
  have hplen : pos < heap.length := Nat.lt_trans hpc hclen
  have hHpos : nth (heap.set pos (nth heap c)) pos = nth heap c :=
    nth_set_self hplen
  have hHother : ∀ k, k ≠ pos → nth (heap.set pos (nth heap c)) k = nth heap k := by
    intro k hk
    exact nth_set_ne (Ne.symm hk)
  constructor
  · intro j hj hj0 hjc
    rw [List.length_set] at hj
    by_cases hpj : hpar j = pos
    · rw [hpj, hHpos]
      have hjpos : j ≠ pos := by
        have e1 : hpar j = (j - 1) / 2 := rfl
        omega
      rw [hHother j hjpos]
      exact hsmall j hj hj0 hpj
    · rw [hHother (hpar j) hpj]
      by_cases hjpos : j = pos
      · subst hjpos
        rw [hHpos]
        have hp0 : 0 < j := hj0
        exact inv2 c hclen hc hp0
      · rw [hHother j hjpos]
        exact inv1 j hj hj0 hpj
  · intro j hj hparj hc0
    rw [List.length_set] at hj
    rw [hc, hHpos]
    have e1 : hpar j = (j - 1) / 2 := rfl
    have e2 : hpar c = (c - 1) / 2 := rfl
    have hjc : c < j := by omega
    have hjpos : j ≠ pos := by omega
    have hj0 : 0 < j := by omega
    rw [hHother j hjpos]
    have hcpos : hpar j ≠ pos := by omega
    have h1 := inv1 j hj hj0 hcpos
    rw [hparj] at h1
    exact h1

theorem invU_siftupAux :
    ∀ (heap : List Patient) (pos endpos : Nat),
    endpos = heap.length → pos < endpos → InvU heap pos →
    InvU (siftupAux heap pos endpos).1 (siftupAux heap pos endpos).2 := by
  intro heap pos endpos
  induction heap, pos, endpos using siftupAux.induct with
  | case1 heap pos endpos h hcc ih =>
    intro he hp hinv
    rw [siftupAux_eq, if_pos h, if_pos hcc]
    refine ih (by simpa using he) hcc.1 ?_
    refine invU_step (by unfold hpar; omega) (by omega) (by omega) ?_ hinv
    intro j hj hj0 hparj
    have e1 : hpar j = (j - 1) / 2 := rfl
    have hj12 : j = 2 * pos + 1 ∨ j = 2 * pos + 2 := by omega
    rcases hj12 with hj1 | hj2
    · subst hj1
      exact Int.not_lt.mp hcc.2
    · subst hj2
      exact Int.le_refl _
  | case2 heap pos endpos h hcc ih =>
    intro he hp hinv
    rw [siftupAux_eq, if_pos h, if_neg hcc]
    refine ih (by simpa using he) h ?_
    refine invU_step (by unfold hpar; omega) (by omega) (by omega) ?_ hinv
    intro j hj hj0 hparj
    have e1 : hpar j = (j - 1) / 2 := rfl
    have hj12 : j = 2 * pos + 1 ∨ j = 2 * pos + 2 := by omega
    rcases hj12 with hj1 | hj2
    · subst hj1
      exact Int.le_refl _
    · subst hj2
      have h2e : 2 * pos + 2 < endpos := by omega
      have hltlr : Patient.lt (nth heap (2 * pos + 1)) (nth heap (2 * pos + 2)) := by
        by_contra hn
        exact hcc ⟨h2e, hn⟩
      exact Int.le_of_lt hltlr
  | case3 heap pos endpos h =>
    intro he hp hinv
    rw [siftupAux_eq, if_neg h]
    exact hinv

theorem isHeap_siftup {heap : List Patient}
    (h0 : 0 < heap.length) (hinv : InvU heap 0) :
    IsHeap (siftup heap 0) := by
  unfold siftup
  have hlen : heap.length = heap.length := rfl
  have hinvU := invU_siftupAux heap 0 heap.length rfl h0 hinv
  have hsnd : (siftupAux heap 0 heap.length).2 < heap.length :=
    snd_siftupAux_lt heap 0 heap.length h0
  have hleaf : 2 * (siftupAux heap 0 heap.length).2 + 1 ≥ heap.length :=
    snd_siftupAux_leaf heap 0 heap.length
  have hlenfst : (siftupAux heap 0 heap.length).1.length = heap.length :=
    length_siftupAux heap 0 heap.length
  apply isHeap_siftdownAux _ _ _ _ rfl
    (by simp only [List.length_set, hlenfst]; omega)
  constructor
  · intro j hj hj0 hjs
    rw [List.length_set, hlenfst] at hj
    rw [List.set_set]
    have hjpar : hpar j ≠ (siftupAux heap 0 heap.length).2 := by
      have e1 : hpar j = (j - 1) / 2 := rfl
      omega
    rw [nth_set_ne (Ne.symm hjpar), nth_set_ne (Ne.symm hjs)]
    exact hinvU.1 j (by omega) hj0 hjpar
  · intro j hj hparj hs0
    exfalso
    rw [List.length_set, hlenfst] at hj
    have e1 : hpar j = (j - 1) / 2 := rfl
    omega

theorem isHeap_heappop {heap rest : List Patient} {p : Patient}
    (hh : IsHeap heap) (hpop : heappop heap = some (p, rest)) :
    IsHeap rest := by
  by_cases hnil : heap = []
  · subst hnil
    simp [heappop] at hpop
  · unfold heappop at hpop
    rw [dif_neg hnil] at hpop
    by_cases hd : heap.dropLast = []
    · rw [if_pos hd] at hpop
      have : rest = [] := by
        injection hpop with h1
        injection h1 with h2 h3
        exact h3.symm
      subst this
      intro j hj hj0
      simp at hj
    · rw [if_neg hd] at hpop
      have hrest : rest = siftup (heap.dropLast.set 0 (heap.getLast hnil)) 0 := by
        injection hpop with h1
        injection h1 with h2 h3
        exact h3.symm
      subst hrest
      have hdlen : 0 < heap.dropLast.length := List.length_pos.mpr hd
      apply isHeap_siftup (by simpa using hdlen)
      constructor
      · intro j hj hj0 hpj
        rw [List.length_set] at hj
        have hplt : hpar j < j := hpar_lt hj0
        have hjheap : j < heap.length := by
          rw [List.length_dropLast] at hj
          omega
        have hpheap : hpar j < heap.length := Nat.lt_trans hplt hjheap
        have hnd1 : nth (heap.dropLast.set 0 (heap.getLast hnil)) j = nth heap j := by
          rw [nth_set_ne (by omega)]
          rw [nth_eq_getElem hj, nth_eq_getElem hjheap]
          exact List.getElem_dropLast heap j hj
        have hnd2 : nth (heap.dropLast.set 0 (heap.getLast hnil)) (hpar j) =
            nth heap (hpar j) := by
          rw [nth_set_ne (by omega)]
          have hplt2 : hpar j < heap.dropLast.length := by omega
          rw [nth_eq_getElem hplt2, nth_eq_getElem hpheap]
          exact List.getElem_dropLast heap (hpar j) hplt2
        rw [hnd1, hnd2]
        exact hh j hjheap hj0
      · intro j hj hparj h00
        exact absurd h00 (by omega)

theorem isHeap_min {l : List Patient} (hh : IsHeap l) :
    ∀ x ∈ l, (nth l 0).urgency_level ≤ x.urgency_level := by
  have key : ∀ i, i < l.length → (nth l 0).urgency_level ≤ (nth l i).urgency_level := by
    intro i
    induction i using Nat.strong_induction_on with
    | _ i ih =>
      intro hi
      by_cases h0 : i = 0
      · subst h0
        exact Int.le_refl _
      · have hi0 : 0 < i := Nat.pos_of_ne_zero h0
        have hplt : hpar i < i := hpar_lt hi0
        exact Int.le_trans (ih (hpar i) hplt (Nat.lt_trans hplt hi)) (hh i hi hi0)
  intro x hx
  obtain ⟨i, hi, rfl⟩ := List.getElem_of_mem hx
  rw [← nth_eq_getElem hi]
  exact key i hi

theorem attend_patient_empty {h : Hospital} (hq : h.priority_queue = []) :
    h.attend_patient = (none, h) := by
  unfold Hospital.attend_patient
  rw [heappop_eq_none_iff.mpr hq]

theorem attend_patient_nonempty {h : Hospital} (hq : h.priority_queue ≠ []) :
    ∃ rest, heappop h.priority_queue = some (nth h.priority_queue 0, rest) ∧
      h.attend_patient = (some (nth h.priority_queue 0),
        { h with
          priority_queue := rest
          attended_stack := h.attended_stack ++ [nth h.priority_queue 0] }) := by
  obtain ⟨rest, hpop, hlen, hperm⟩ := heappop_spec hq
  refine ⟨rest, hpop, ?_⟩
  unfold Hospital.attend_patient
  rw [hpop]

theorem undo_empty {h : Hospital} (hs : h.attended_stack = []) :
    h.undo_last_attendance = (none, h) := by
  unfold Hospital.undo_last_attendance
  rw [hs]
  rfl

theorem undo_nonempty {h : Hospital} {ys : List Patient} {a : Patient}
    (hs : h.attended_stack = ys ++ [a]) :
    h.undo_last_attendance = (some a,
      { h with
        attended_stack := ys
        priority_queue := heappush h.priority_queue a }) := by
  unfold Hospital.undo_last_attendance
  rw [hs, List.getLast?_concat, List.dropLast_concat]

theorem attend_all_patients (h : Hospital) :
    ((h.attend_patient).2).all_patients = h.all_patients := by
  unfold Hospital.attend_patient
  cases heappop h.priority_queue with
  | none => rfl
  | some pr => rfl

theorem undo_all_patients (h : Hospital) :
    ((h.undo_last_attendance).2).all_patients = h.all_patients := by
  unfold Hospital.undo_last_attendance
  cases h.attended_stack.getLast? with
  | none => rfl
  | some p => rfl

theorem attend_cons {h : Hospital} (hq : h.priority_queue ≠ []) :
    ∃ (p : Patient) (g : Hospital),
      h.attend_patient = (some p, g) ∧
      p = nth h.priority_queue 0 ∧
      g.attended_stack = h.attended_stack ++ [p] ∧
      g.all_patients = h.all_patients ∧
      g.priority_queue.length + 1 = h.priority_queue.length ∧
      (p :: g.priority_queue).Perm h.priority_queue := by
  obtain ⟨rest, hpop, hlen, hperm⟩ := heappop_spec hq
  refine ⟨nth h.priority_queue 0,
    { h with
      priority_queue := rest
      attended_stack := h.attended_stack ++ [nth h.priority_queue 0] },
    ?_, rfl, rfl, rfl, ?_, ?_⟩
  · unfold Hospital.attend_patient
    rw [hpop]
  · exact hlen
  · exact hperm

theorem undo_cons {h : Hospital} {ys : List Patient} {a : Patient}
    (hs : h.attended_stack = ys ++ [a]) :
    ∃ g : Hospital,
      h.undo_last_attendance = (some a, g) ∧
      g.attended_stack = ys ∧
      g.priority_queue = heappush h.priority_queue a ∧
      g.all_patients = h.all_patients :=
  ⟨_, undo_nonempty hs, rfl, rfl, rfl⟩

theorem runOps_inv (P : Hospital → Prop)
    (hstep : ∀ h op, P h → P (applyOp h op)) :
    ∀ ops h, P h → P (runOps h ops) := by
  intro ops
  induction ops with
  | nil =>
    intro h hp
    exact hp
  | cons op t ih =>
    intro h hp
    exact ih _ (hstep h op hp)

theorem applyOp_sizeInv {h : Hospital} (op : Op)
    (hs : h.all_patients.length =
      h.priority_queue.length + h.attended_stack.length) :
    (applyOp h op).all_patients.length =
      (applyOp h op).priority_queue.length + (applyOp h op).attended_stack.length := by
  cases op with
  | register p =>
    simp only [applyOp, Hospital.add_patient, length_heappush, List.length_append,
      List.length_cons, List.length_nil]
    omega
  | attendNext =>
    by_cases hq : h.priority_queue = []
    · rw [applyOp, attend_patient_empty hq]
      exact hs
    · obtain ⟨rest, hpop, heq⟩ := attend_patient_nonempty hq
      obtain ⟨rest2, hpop2, hlen, hperm⟩ := heappop_spec hq
      rw [hpop] at hpop2
      have hre : rest2 = rest := by
        injection hpop2 with h1
        injection h1 with h2 h3
        exact h3.symm
      subst hre
      rw [applyOp, heq]
      simp only [List.length_append, List.length_cons, List.length_nil]
      omega
  | undoLast =>
    rcases List.eq_nil_or_concat h.attended_stack with hnil | ⟨ys, a, hya⟩
    · rw [applyOp, undo_empty hnil]
      exact hs
    · rw [List.concat_eq_append] at hya
      rw [applyOp, undo_nonempty hya]
      rw [hya] at hs
      simp only [length_heappush, List.length_append, List.length_cons,
        List.length_nil] at *
      omega

theorem applyOp_heapInv {h : Hospital} (op : Op)
    (hh : IsHeap h.priority_queue) : IsHeap ((applyOp h op).priority_queue) := by
  cases op with
  | register p =>
    exact isHeap_heappush hh
  | attendNext =>
    by_cases hq : h.priority_queue = []
    · rw [applyOp, attend_patient_empty hq]
      exact hh
    · obtain ⟨rest, hpop, heq⟩ := attend_patient_nonempty hq
      rw [applyOp, heq]
      exact isHeap_heappop hh hpop
  | undoLast =>
    rcases List.eq_nil_or_concat h.attended_stack with hnil | ⟨ys, a, hya⟩
    · rw [applyOp, undo_empty hnil]
      exact hh
    · rw [List.concat_eq_append] at hya
      rw [applyOp, undo_nonempty hya]
      exact isHeap_heappush hh

/-- Patients passed to `register` in a sequence of operations, in order. -/
def registeredOf (ops : List Op) : List Patient :=
  ops.filterMap fun op =>
    match op with
    | .register p => some p
    | .attendNext => none
    | .undoLast => none

theorem all_patients_runOps :
    ∀ (ops : List Op) (h : Hospital),
    (runOps h ops).all_patients = h.all_patients ++ registeredOf ops := by
  intro ops
  induction ops with
  | nil =>
    intro h
    simp [runOps, registeredOf]
  | cons op t ih =>
    intro h
    have hrun : runOps h (op :: t) = runOps (applyOp h op) t := rfl
    rw [hrun, ih]
    cases op with
    | register p =>
      simp [applyOp, Hospital.add_patient, registeredOf, List.filterMap_cons]
    | attendNext =>
      rw [show (applyOp h Op.attendNext).all_patients = h.all_patients from
        attend_all_patients h]
      simp [registeredOf, List.filterMap_cons]
    | undoLast =>
      rw [show (applyOp h Op.undoLast).all_patients = h.all_patients from
        undo_all_patients h]
      simp [registeredOf, List.filterMap_cons]

/-- C1: for every sequence of register/attendNext/undoLastAttendance
operations applied to a freshly constructed manager, the size of the
registry equals the size of the waiting collection plus the size of the
history collection (in particular after every prefix of operations, since
the statement is quantified over all operation sequences). -/
theorem claimC1 (name : String) (ops : List Op) :
    (runOps (Hospital.init name) ops).all_patients.length =
      (runOps (Hospital.init name) ops).priority_queue.length +
        (runOps (Hospital.init name) ops).attended_stack.length := by
  refine runOps_inv
    (fun h => h.all_patients.length =
      h.priority_queue.length + h.attended_stack.length)
    (fun h op hp => applyOp_sizeInv op hp) ops _ rfl

/-- C2: on a manager state whose waiting heap is non-empty (and is a
well-formed binary heap, as every reachable state is — see C10),
`attend_patient` returns some patient `p` that is in the waiting
collection, is preceded by no other waiting patient (no strictly smaller
urgency level), is removed from the waiting multiset exactly once, and is
appended at the tail of the attended history. -/
theorem claimC2 {h : Hospital}
    (hheap : IsHeap h.priority_queue) (hne : h.priority_queue ≠ []) :
    ∃ p : Patient,
      (h.attend_patient).1 = some p ∧
      p ∈ h.priority_queue ∧
      (∀ q ∈ h.priority_queue, ¬ Patient.lt q p) ∧
      (p :: ((h.attend_patient).2).priority_queue).Perm h.priority_queue ∧
      ((h.attend_patient).2).attended_stack = h.attended_stack ++ [p] := by
  obtain ⟨p, g, heq, hp0, hgs, hga, hglen, hgperm⟩ := attend_cons hne
  refine ⟨p, ?_, ?_, ?_, ?_, ?_⟩
  · rw [heq]
  · exact hgperm.mem_iff.mp (List.mem_cons_self _ _)
  · intro q hq
    have := isHeap_min hheap q hq
    rw [← hp0] at this
    unfold Patient.lt
    omega
  · rw [heq]
    exact hgperm
  · rw [heq]
    exact hgs

/-- C3: `waiting_patients` returns a permutation (same multiset) of the
waiting collection, arranged in non-decreasing urgency-level order; the
embedding of `waiting_patients` is a pure function of the state, so the
waiting collection itself is unchanged by the call (the state is not
modified, only read). -/
theorem claimC3 (h : Hospital) :
    (h.waiting_patients).Perm h.priority_queue ∧
    h.waiting_patients.Pairwise
      (fun a b => a.urgency_level ≤ b.urgency_level) := by
  constructor
  · exact List.mergeSort_perm h.priority_queue _
  · have hs : (h.waiting_patients).Pairwise
        (fun a b => (fun x y : Patient =>
          decide (x.urgency_level ≤ y.urgency_level)) a b = true) := by
      unfold Hospital.waiting_patients
      exact List.sorted_mergeSort
        (fun a b c hab hbc => by
          simp only [decide_eq_true_eq] at *
          omega)
        (fun a b => by
          simp only [Bool.or_eq_true, decide_eq_true_eq]
          omega)
        h.priority_queue
    refine hs.imp ?_
    intro a b hab
    simpa using hab

/-- C4: on a manager state with a non-empty waiting collection,
`attend_patient` immediately followed by `undo_last_attendance` restores
the waiting collection to its pre-attend multiset content (a permutation
of the original heap array) and restores the history to its exact
pre-attend content. -/
theorem claimC4 {h : Hospital} (hne : h.priority_queue ≠ []) :
    ((((h.attend_patient).2).undo_last_attendance).2).priority_queue.Perm
        h.priority_queue ∧
    ((((h.attend_patient).2).undo_last_attendance).2).attended_stack =
        h.attended_stack := by
  obtain ⟨p, g, heq, hp0, hgs, hga, hglen, hgperm⟩ := attend_cons hne
  obtain ⟨g2, hu, hgs2, hgq2, hga2⟩ := undo_cons hgs
  rw [heq]
  constructor
  · show ((g.undo_last_attendance).2).priority_queue.Perm h.priority_queue
    rw [hu]
    show g2.priority_queue.Perm h.priority_queue
    rw [hgq2]
    exact (perm_heappush g.priority_queue p).trans hgperm
  · show ((g.undo_last_attendance).2).attended_stack = h.attended_stack
    rw [hu]
    exact hgs2

/-- C5: starting from a state with empty history and at least three
waiting patients, three successive `attend_patient` calls return patients
P1, P2, P3 in that order, `get_attended_patients` then returns exactly
[P1, P2, P3] in stored order, and three successive
`undo_last_attendance` calls return P3, then P2, then P1. -/
theorem claimC5 {h : Hospital}
    (hstack : h.attended_stack = [])
    (hlen : 3 ≤ h.priority_queue.length) :
    ∃ (p1 p2 p3 : Patient) (h1 h2 h3 g1 g2 g3 : Hospital),
      h.attend_patient = (some p1, h1) ∧
      h1.attend_patient = (some p2, h2) ∧
      h2.attend_patient = (some p3, h3) ∧
      h3.get_attended_patients = [p1, p2, p3] ∧
      h3.undo_last_attendance = (some p3, g1) ∧
      g1.undo_last_attendance = (some p2, g2) ∧
      g2.undo_last_attendance = (some p1, g3) := by
  have hne1 : h.priority_queue ≠ [] := by
    intro hx
    rw [hx] at hlen
    simp at hlen
  obtain ⟨p1, h1, heq1, hp1, hs1, ha1, hl1, hperm1⟩ := attend_cons hne1
  have hne2 : h1.priority_queue ≠ [] := by
    intro hx
    rw [hx] at hl1
    simp at hl1
    omega
  obtain ⟨p2, h2, heq2, hp2, hs2, ha2, hl2, hperm2⟩ := attend_cons hne2
  have hne3 : h2.priority_queue ≠ [] := by
    intro hx
    rw [hx] at hl2
    simp at hl2
    omega
  obtain ⟨p3, h3, heq3, hp3, hs3, ha3, hl3, hperm3⟩ := attend_cons hne3
  have hstack3 : h3.attended_stack = [p1, p2, p3] := by
    rw [hs3, hs2, hs1, hstack]
    rfl
  obtain ⟨g1, hu1, hg1, hq1, hb1⟩ := undo_cons
    (show h3.attended_stack = [p1, p2] ++ [p3] by rw [hstack3]; rfl)
  obtain ⟨g2, hu2, hg2, hq2, hb2⟩ := undo_cons
    (show g1.attended_stack = [p1] ++ [p2] by rw [hg1]; rfl)
  obtain ⟨g3, hu3, hg3, hq3, hb3⟩ := undo_cons
    (show g2.attended_stack = [] ++ [p1] by rw [hg2]; rfl)
  exact ⟨p1, p2, p3, h1, h2, h3, g1, g2, g3, heq1, heq2, heq3,
    hstack3, hu1, hu2, hu3⟩

/-- C6: `attend_patient` on a manager with an empty waiting collection
returns no patient and leaves the waiting, history and registry
collections unchanged; `undo_last_attendance` on a manager with an empty
history likewise returns no patient and leaves all three collections
unchanged. -/
theorem claimC6 (h : Hospital) :
    (h.priority_queue = [] →
      (h.attend_patient).1 = none ∧
      (h.attend_patient).2.priority_queue = h.priority_queue ∧
      (h.attend_patient).2.attended_stack = h.attended_stack ∧
      (h.attend_patient).2.all_patients = h.all_patients) ∧
    (h.attended_stack = [] →
      (h.undo_last_attendance).1 = none ∧
      (h.undo_last_attendance).2.priority_queue = h.priority_queue ∧
      (h.undo_last_attendance).2.attended_stack = h.attended_stack ∧
      (h.undo_last_attendance).2.all_patients = h.all_patients) := by
  constructor
  · intro hq
    rw [attend_patient_empty hq]
    exact ⟨rfl, rfl, rfl, rfl⟩
  · intro hs
    rw [undo_empty hs]
    exact ⟨rfl, rfl, rfl, rfl⟩

/-- C7: after any sequence of operations from a fresh manager, the
registry (`get_all_patients`) is exactly the sequence of patients passed
to `register`, in order; consequently, when the registered patient values
are pairwise distinct (as Python object identities always are), each
appears exactly once, and it stays there no matter which attend/undo
operations the sequence contains. -/
theorem claimC7 (name : String) (ops : List Op) :
    (runOps (Hospital.init name) ops).get_all_patients = registeredOf ops ∧
    ((registeredOf ops).Nodup →
      ∀ p ∈ registeredOf ops,
        ((runOps (Hospital.init name) ops).get_all_patients).count p = 1) := by
  have hall : (runOps (Hospital.init name) ops).get_all_patients =
      registeredOf ops := by
    have := all_patients_runOps ops (Hospital.init name)
    simpa [Hospital.get_all_patients, Hospital.init] using this
  refine ⟨hall, ?_⟩
  intro hnd p hp
  rw [hall]
  exact List.count_eq_one_of_mem hnd hp

/-- C8: the ordering relation `Patient.lt` (Python `__lt__`, the spec's
`precedes`) holds between A and B exactly when A's urgency level is
strictly smaller than B's, and it is a strict weak ordering: irreflexive,
transitive, and with transitive incomparability. -/
theorem claimC8 :
    (∀ a b : Patient, Patient.lt a b ↔ a.urgency_level < b.urgency_level) ∧
    (∀ a : Patient, ¬ Patient.lt a a) ∧
    (∀ a b c : Patient, Patient.lt a b → Patient.lt b c → Patient.lt a c) ∧
    (∀ a b c : Patient,
      ¬ Patient.lt a b ∧ ¬ Patient.lt b a →
      ¬ Patient.lt b c ∧ ¬ Patient.lt c b →
      ¬ Patient.lt a c ∧ ¬ Patient.lt c a) := by
  refine ⟨fun a b => Iff.rfl, ?_, ?_, ?_⟩
  · intro a
    unfold Patient.lt
    omega
  · intro a b c
    unfold Patient.lt
    omega
  · intro a b c
    unfold Patient.lt
    omega

/-- C9: `attend_patient` leaves the registry unchanged and
`undo_last_attendance` leaves the registry unchanged, on every manager
state: among the three operations only `add_patient` ever modifies the
registry (and it only appends). -/
theorem claimC9 (h : Hospital) :
    ((h.attend_patient).2).all_patients = h.all_patients ∧
    ((h.undo_last_attendance).2).all_patients = h.all_patients :=
  ⟨attend_all_patients h, undo_all_patients h⟩

/-- C10: after every sequence of operations from a fresh manager, the
internal waiting list satisfies the binary min-heap property: the patient
at index i has urgency level no greater than the patients at indices
2i+1 and 2i+2 when those exist, and in particular the patient at index 0
has minimal urgency level among all waiting patients. -/
theorem claimC10 (name : String) (ops : List Op) :
    (∀ i j : Nat, (j = 2 * i + 1 ∨ j = 2 * i + 2) →
      j < (runOps (Hospital.init name) ops).priority_queue.length →
      (nth (runOps (Hospital.init name) ops).priority_queue i).urgency_level ≤
        (nth (runOps (Hospital.init name) ops).priority_queue j).urgency_level) ∧
    (∀ p ∈ (runOps (Hospital.init name) ops).priority_queue,
      (nth (runOps (Hospital.init name) ops).priority_queue 0).urgency_level ≤
        p.urgency_level) := by
  have hh : IsHeap (runOps (Hospital.init name) ops).priority_queue := by
    refine runOps_inv (fun h => IsHeap h.priority_queue)
      (fun h op hp => applyOp_heapInv op hp) ops _ ?_
    intro j hj hj0
    simp [Hospital.init] at hj
  constructor
  · intro i j hij hj
    have hj0 : 0 < j := by omega
    have hpj : hpar j = i := by
      unfold hpar
      omega
    have := hh j hj hj0
    rwa [hpj] at this
  · exact isHeap_min hh

/-- Witness for C2 at a concrete two-patient heap state. -/
theorem claimC2_witness :
    IsHeap (⟨"H", [⟨"A", 1⟩, ⟨"C", 2⟩], [], [⟨"A", 1⟩, ⟨"C", 2⟩]⟩ :
        Hospital).priority_queue ∧
    (⟨"H", [⟨"A", 1⟩, ⟨"C", 2⟩], [], [⟨"A", 1⟩, ⟨"C", 2⟩]⟩ :
        Hospital).priority_queue ≠ [] ∧
    ∃ p : Patient,
      ((⟨"H", [⟨"A", 1⟩, ⟨"C", 2⟩], [], [⟨"A", 1⟩, ⟨"C", 2⟩]⟩ :
          Hospital).attend_patient).1 = some p ∧
      p ∈ (⟨"H", [⟨"A", 1⟩, ⟨"C", 2⟩], [], [⟨"A", 1⟩, ⟨"C", 2⟩]⟩ :
          Hospital).priority_queue ∧
      (∀ q ∈ (⟨"H", [⟨"A", 1⟩, ⟨"C", 2⟩], [], [⟨"A", 1⟩, ⟨"C", 2⟩]⟩ :
          Hospital).priority_queue, ¬ Patient.lt q p) ∧
      (p :: (((⟨"H", [⟨"A", 1⟩, ⟨"C", 2⟩], [], [⟨"A", 1⟩, ⟨"C", 2⟩]⟩ :
          Hospital).attend_patient).2).priority_queue).Perm
        (⟨"H", [⟨"A", 1⟩, ⟨"C", 2⟩], [], [⟨"A", 1⟩, ⟨"C", 2⟩]⟩ :
          Hospital).priority_queue ∧
      (((⟨"H", [⟨"A", 1⟩, ⟨"C", 2⟩], [], [⟨"A", 1⟩, ⟨"C", 2⟩]⟩ :
          Hospital).attend_patient).2).attended_stack =
        (⟨"H", [⟨"A", 1⟩, ⟨"C", 2⟩], [], [⟨"A", 1⟩, ⟨"C", 2⟩]⟩ :
          Hospital).attended_stack ++ [p] :=
  ⟨by decide, by decide, claimC2 (by decide) (by decide)⟩

/-- Witness for C4 at a concrete two-patient heap state. -/
theorem claimC4_witness :
    (⟨"H", [⟨"A", 1⟩, ⟨"C", 2⟩], [], [⟨"A", 1⟩, ⟨"C", 2⟩]⟩ :
        Hospital).priority_queue ≠ [] ∧
    (((((⟨"H", [⟨"A", 1⟩, ⟨"C", 2⟩], [], [⟨"A", 1⟩, ⟨"C", 2⟩]⟩ :
        Hospital).attend_patient).2).undo_last_attendance).2).priority_queue.Perm
      (⟨"H", [⟨"A", 1⟩, ⟨"C", 2⟩], [], [⟨"A", 1⟩, ⟨"C", 2⟩]⟩ :
        Hospital).priority_queue ∧
    (((((⟨"H", [⟨"A", 1⟩, ⟨"C", 2⟩], [], [⟨"A", 1⟩, ⟨"C", 2⟩]⟩ :
        Hospital).attend_patient).2).undo_last_attendance).2).attended_stack =
      (⟨"H", [⟨"A", 1⟩, ⟨"C", 2⟩], [], [⟨"A", 1⟩, ⟨"C", 2⟩]⟩ :
        Hospital).attended_stack := by
  refine ⟨by decide, ?_, ?_⟩
  · exact (claimC4 (by decide)).1
  · exact (claimC4 (by decide)).2

/-- Witness for C5 at a concrete three-patient heap state. -/
theorem claimC5_witness :
    (⟨"H", [⟨"A", 1⟩, ⟨"C", 2⟩, ⟨"B", 5⟩], [], [⟨"A", 1⟩, ⟨"B", 5⟩, ⟨"C", 2⟩]⟩ :
        Hospital).attended_stack = [] ∧
    3 ≤ (⟨"H", [⟨"A", 1⟩, ⟨"C", 2⟩, ⟨"B", 5⟩], [],
        [⟨"A", 1⟩, ⟨"B", 5⟩, ⟨"C", 2⟩]⟩ : Hospital).priority_queue.length ∧
    ∃ (p1 p2 p3 : Patient) (h1 h2 h3 g1 g2 g3 : Hospital),
      (⟨"H", [⟨"A", 1⟩, ⟨"C", 2⟩, ⟨"B", 5⟩], [],
        [⟨"A", 1⟩, ⟨"B", 5⟩, ⟨"C", 2⟩]⟩ : Hospital).attend_patient = (some p1, h1) ∧
      h1.attend_patient = (some p2, h2) ∧
      h2.attend_patient = (some p3, h3) ∧
      h3.get_attended_patients = [p1, p2, p3] ∧
      h3.undo_last_attendance = (some p3, g1) ∧
      g1.undo_last_attendance = (some p2, g2) ∧
      g2.undo_last_attendance = (some p1, g3) :=
  ⟨by decide, by decide, claimC5 (by decide) (by decide)⟩

/-- Witness for C6 at a concrete state with empty waiting collection and
empty history. -/
theorem claimC6_witness :
    (⟨"H", [], [], []⟩ : Hospital).priority_queue = [] ∧
    (((⟨"H", [], [], []⟩ : Hospital).attend_patient).1 = none ∧
      ((⟨"H", [], [], []⟩ : Hospital).attend_patient).2.priority_queue =
        (⟨"H", [], [], []⟩ : Hospital).priority_queue ∧
      ((⟨"H", [], [], []⟩ : Hospital).attend_patient).2.attended_stack =
        (⟨"H", [], [], []⟩ : Hospital).attended_stack ∧
      ((⟨"H", [], [], []⟩ : Hospital).attend_patient).2.all_patients =
        (⟨"H", [], [], []⟩ : Hospital).all_patients) ∧
    (⟨"H", [], [], []⟩ : Hospital).attended_stack = [] ∧
    (((⟨"H", [], [], []⟩ : Hospital).undo_last_attendance).1 = none ∧
      ((⟨"H", [], [], []⟩ : Hospital).undo_last_attendance).2.priority_queue =
        (⟨"H", [], [], []⟩ : Hospital).priority_queue ∧
      ((⟨"H", [], [], []⟩ : Hospital).undo_last_attendance).2.attended_stack =
        (⟨"H", [], [], []⟩ : Hospital).attended_stack ∧
      ((⟨"H", [], [], []⟩ : Hospital).undo_last_attendance).2.all_patients =
        (⟨"H", [], [], []⟩ : Hospital).all_patients) :=
  ⟨rfl, (claimC6 _).1 rfl, rfl, (claimC6 _).2 rfl⟩

/-- Witness for C7 at a concrete operation sequence registering two
distinct patients and attending one. -/
theorem claimC7_witness :
    (registeredOf [Op.register ⟨"A", 1⟩, Op.register ⟨"B", 2⟩,
        Op.attendNext]).Nodup ∧
    ∀ p ∈ registeredOf [Op.register ⟨"A", 1⟩, Op.register ⟨"B", 2⟩,
        Op.attendNext],
      ((runOps (Hospital.init "H") [Op.register ⟨"A", 1⟩, Op.register ⟨"B", 2⟩,
        Op.attendNext]).get_all_patients).count p = 1 :=
  ⟨by decide, (claimC7 "H" _).2 (by decide)⟩

/-- Witness for C8: transitivity applied at three concrete patients. -/
theorem claimC8_witness :
    Patient.lt (⟨"A", 1⟩ : Patient) ⟨"C", 2⟩ ∧
    Patient.lt (⟨"C", 2⟩ : Patient) ⟨"B", 5⟩ ∧
    Patient.lt (⟨"A", 1⟩ : Patient) ⟨"B", 5⟩ :=
  ⟨by decide, by decide,
    claimC8.2.2.1 ⟨"A", 1⟩ ⟨"C", 2⟩ ⟨"B", 5⟩ (by decide) (by decide)⟩

/-- Witness for C10 at a concrete two-registration sequence: the root of
the resulting heap is no less urgent than its left child. -/
theorem claimC10_witness :
    (1 = 2 * 0 + 1 ∨ 1 = 2 * 0 + 2) ∧
    (nth (runOps (Hospital.init "H")
        [Op.register ⟨"B", 5⟩, Op.register ⟨"A", 1⟩]).priority_queue 0).urgency_level ≤
      (nth (runOps (Hospital.init "H")
        [Op.register ⟨"B", 5⟩, Op.register ⟨"A", 1⟩]).priority_queue 1).urgency_level := by
  refine ⟨Or.inl rfl, ?_⟩
  have hlen : (runOps (Hospital.init "H")
      [Op.register ⟨"B", 5⟩, Op.register ⟨"A", 1⟩]).priority_queue.length = 2 := by
    show (heappush (heappush [] ⟨"B", 5⟩) ⟨"A", 1⟩).length = 2
    rw [length_heappush, length_heappush]
    rfl
  exact (claimC10 "H" _).1 0 1 (Or.inl rfl) (by omega)

end Triage
